import Mathlib

/-!
Verification of the MultiWOZ acquisition pipeline
(`backend/modal/data/download_multiwoz.py`).

The Python module manipulates a filesystem, performs network fetches and
logs progress.  We shallowly embed it: the filesystem is a finite tree of
named entries, JSON payloads are an inductive `Json` type, network and
HuggingFace outcomes are explicit parameters, and every operation of the
`MultiWOZDownloader` class becomes a pure Lean function returning the new
filesystem together with the emitted observable events.  Python exceptions
become explicit error results (`Outcome.err`), and operations that the
source leaves to the standard library (`Path.mkdir`, `open(_, 'w')`,
`Path.rename`, `Path.rmdir`, `set.update`, the `in` operator) are embedded
with their documented Python semantics, including the error cases.
-/

/-- JSON values, as produced by `json.load` / consumed by `json.dump`. -/
inductive Json where
  | null
  | bool (b : Bool)
  | num (n : Int)
  | str (s : String)
  | arr (elems : List Json)
  | obj (fields : List (String × Json))

mutual

/-- Structural equality test on JSON values (Python `==` on decoded JSON). -/
def Json.beq : Json → Json → Bool
  | .null, .null => true
  | .bool a, .bool b => a == b
  | .num a, .num b => a == b
  | .str a, .str b => a == b
  | .arr xs, .arr ys => Json.beqL xs ys
  | .obj xs, .obj ys => Json.beqO xs ys
  | _, _ => false

/-- Equality test on JSON arrays, elementwise. -/
def Json.beqL : List Json → List Json → Bool
  | [], [] => true
  | x :: xs, y :: ys => Json.beq x y && Json.beqL xs ys
  | _, _ => false

/-- Equality test on JSON object field lists, fieldwise. -/
def Json.beqO : List (String × Json) → List (String × Json) → Bool
  | [], [] => true
  | (k, v) :: xs, (l, w) :: ys => k == l && Json.beq v w && Json.beqO xs ys
  | _, _ => false

end

instance : BEq Json := ⟨Json.beq⟩

/-- Content of a regular file: either text that parses as JSON, or text
that does not (`json.load` raises on it). -/
inductive FileContent where
  | jsonText (j : Json)
  | raw (s : String)

/-- One member of a zip archive: a file at a relative path. -/
structure ZipEntry where
  path : List String
  content : FileContent

/-- Data stored in a regular file: plain text content, or a zip archive
(whose members `zipfile` can enumerate). A file holding anything else than
a well-formed archive is `plain` and makes `zipfile.ZipFile` fail. -/
inductive FileData where
  | plain (c : FileContent)
  | zip (entries : List ZipEntry)

/-- A filesystem tree: a regular file or a directory of uniquely named
entries (in directory enumeration order). -/
inductive FSTree where
  | file (d : FileData)
  | dir (entries : List (String × FSTree))

/-- Lookup of a directory entry by name (first match). -/
def getEntry : List (String × FSTree) → String → Option FSTree
  | [], _ => none
  | (m, t) :: r, n => if m = n then some t else getEntry r n

/-- Replacement or appending of a directory entry. -/
def setEntry : List (String × FSTree) → String → FSTree → List (String × FSTree)
  | [], n, t => [(n, t)]
  | (m, u) :: r, n, t => if m = n then (n, t) :: r else (m, u) :: setEntry r n t

/-- Removal of a directory entry by name. -/
def removeEntry : List (String × FSTree) → String → List (String × FSTree)
  | [], _ => []
  | (m, u) :: r, n => if m = n then removeEntry r n else (m, u) :: removeEntry r n

/-- Path resolution from a tree (Python `Path` lookup; `[]` is the tree
itself). -/
def FSTree.lookup : FSTree → List String → Option FSTree
  | t, [] => some t
  | .file _, _ :: _ => none
  | .dir es, n :: p =>
      match getEntry es n with
      | some c => FSTree.lookup c p
      | none => none

/-- Replacement of the subtree at a path; every ancestor must already
exist as a directory, else `none` (the raised `FileNotFoundError`). -/
def putTree : List String → FSTree → FSTree → Option FSTree
  | [], t, _ => some t
  | [n], t, .dir es => some (.dir (setEntry es n t))
  | n :: p, t, .dir es =>
      match getEntry es n with
      | some c => (putTree p t c).map (fun c2 => .dir (setEntry es n c2))
      | none => none
  | _, _, .file _ => none

/-- Python `open(path, 'w')` followed by a full write: overwrites a
regular file or creates it; fails if the target is a directory
(`IsADirectoryError`) or a parent is missing. -/
def writeFile (p : List String) (d : FileData) (fs : FSTree) : Option FSTree :=
  match fs.lookup p with
  | some (.dir _) => none
  | _ => putTree p (.file d) fs

/-- Python `Path.mkdir(parents=True, exist_ok=True)`: creates the chain of
directories; fails if some component already exists as a regular file. -/
def mkdirp : List String → FSTree → Option FSTree
  | [], .dir es => some (.dir es)
  | [], .file _ => none
  | n :: p, .dir es =>
      (mkdirp p (match getEntry es n with
                 | some c => c
                 | none => .dir [])).map (fun c => .dir (setEntry es n c))
  | _ :: _, .file _ => none

/-- Python `Path.mkdir(exist_ok=True)` (no `parents`): the parent must
already exist; an existing directory is accepted, an existing file is a
`FileExistsError`. -/
def mkdir1 : List String → FSTree → Option FSTree
  | [], .dir es => some (.dir es)
  | [], .file _ => none
  | [n], .dir es =>
      match getEntry es n with
      | some (.dir es2) => some (.dir (setEntry es n (.dir es2)))
      | some (.file _) => none
      | none => some (.dir (setEntry es n (.dir [])))
  | n :: p, .dir es =>
      match getEntry es n with
      | some c => (mkdir1 p c).map (fun c2 => .dir (setEntry es n c2))
      | none => none
  | _ :: _, .file _ => none

/-- Removal of the entry at a path (used for `Path.unlink` after an
existence check); a missing path leaves the tree unchanged. -/
def erasePath : List String → FSTree → FSTree
  | [], t => t
  | [n], .dir es => .dir (removeEntry es n)
  | n :: p, .dir es =>
      match getEntry es n with
      | some c => .dir (setEntry es n (erasePath p c))
      | none => .dir es
  | _ :: _, .file d => .file d

mutual

/-- Count of regular files in a tree. -/
def FSTree.nfiles : FSTree → Nat
  | .file _ => 1
  | .dir es => nfilesE es

/-- Count of regular files below a list of directory entries. -/
def nfilesE : List (String × FSTree) → Nat
  | [] => 0
  | e :: r => e.2.nfiles + nfilesE r

end

mutual

/-- Count of all nodes (files and directories) strictly below a tree's
root. -/
def FSTree.nnodes : FSTree → Nat
  | .file _ => 1
  | .dir es => 1 + nnodesE es

/-- Count of all nodes in a list of directory entries. -/
def nnodesE : List (String × FSTree) → Nat
  | [] => 0
  | e :: r => e.2.nnodes + nnodesE r

end

/-- Observable events emitted by the pipeline: network requests, the
HuggingFace `load_dataset` call, and the log lines the claims talk
about. -/
inductive Event where
  | net (url : String)
  | hfLoad
  | extractStart
  | info (msg : String)
  | warnSkip (name : String)
  | warnRead (name : String)
  | errorLog (msg : String)
  | saved (split : String) (count : Nat)
deriving DecidableEq

/-- Test for the events that correspond to network access (the HTTP GET of
the primary fetch and the HuggingFace dataset retrieval). -/
def Event.isNetwork : Event → Bool
  | .net _ => true
  | .hfLoad => true
  | _ => false

/-- Result value of a fallible operation: the returned value or the raised
exception's kind. -/
inductive Outcome (α : Type) where
  | ok (val : α)
  | err (msg : String)
deriving DecidableEq

/-- Result of one embedded operation: outcome, filesystem afterwards (the
state at raise time when an exception propagates), and emitted events. -/
structure Res (α : Type) where
  out : Outcome α
  fs : FSTree
  events : List Event

/-- Name of the staged archive file `MultiWOZ_2.2.zip`. -/
def zipName : String := "MultiWOZ_2.2.zip"

/-- Name of the dataset root directory `multiwoz_2.2`. -/
def extractName : String := "multiwoz_2.2"

/-- The fixed primary download URL `MULTIWOZ_URL`. -/
def multiwozURL : String := "https://github.com/budzianowski/multiwoz/raw/master/data/MultiWOZ_2.2.zip"

/-- Embedding of `MultiWOZDownloader.is_valid_dataset`: each expected
split name must exist under the root (a bare `Path.exists` test, with no
directory check and no content read). -/
def is_valid_dataset (fs : FSTree) (root : List String) : Bool :=
  ["train", "dev", "test"].all (fun s => (fs.lookup (root ++ [s])).isSome)

/-- Outcome of the primary HTTP fetch, an input of the model: a successful
streamed archive, or a raised exception optionally leaving a partially
written destination file behind. -/
inductive FetchOutcome where
  | success (entries : List ZipEntry)
  | failure (leftover : Option FileData)

/-- Embedding of `MultiWOZDownloader.download_file`: issues the request
and either streams the archive to the destination or raises, possibly
after writing a partial file. -/
def download_file (net : FetchOutcome) (url : String) (dest : List String)
    (fs : FSTree) : Res Unit :=
  match net with
  | .success entries =>
      match writeFile dest (.zip entries) fs with
      | some fs1 => ⟨.ok (), fs1, [.net url, .info "Downloaded"]⟩
      | none => ⟨.err "OSError", fs, [.net url]⟩
  | .failure none => ⟨.err "NetworkError", fs, [.net url]⟩
  | .failure (some d) =>
      match writeFile dest d fs with
      | some fs1 => ⟨.err "NetworkError", fs1, [.net url]⟩
      | none => ⟨.err "NetworkError", fs, [.net url]⟩

/-- Embedding of `zip_ref.extractall(extract_dir)`: each member is written
below the target directory, parent directories are created, existing files
are overwritten; a member clashing with an existing directory raises,
leaving the partial state. -/
def extractAll : List ZipEntry → List String → FSTree → Except FSTree FSTree
  | [], _, fs => .ok fs
  | e :: rest, ep, fs =>
      match mkdirp (ep ++ e.path.dropLast) fs with
      | none => .error fs
      | some fs1 =>
          match writeFile (ep ++ e.path) (.plain e.content) fs1 with
          | none => .error fs1
          | some fs2 => extractAll rest ep fs2

/-- Embedding of the flattening loop `for item in data_subdir.iterdir()`:
`items` is the snapshot of the wrapper's entries, `pes` the current
entries of the target directory (the stale `data` entry included, exactly
as `target.exists()` sees them), `dleft` what is still inside the wrapper.
Returns the final target entries, the wrapper leftovers, and the names
skipped with a warning, in iteration order. -/
def moveEntries : List (String × FSTree) → List (String × FSTree) →
    List (String × FSTree) →
    List (String × FSTree) × List (String × FSTree) × List String
  | [], pes, dleft => (pes, dleft, [])
  | (n, t) :: rest, pes, dleft =>
      if (getEntry pes n).isSome then
        let r := moveEntries rest pes dleft
        (r.1, r.2.1, n :: r.2.2)
      else
        moveEntries rest (setEntry pes n t) (removeEntry dleft n)

/-- Result of the wrapper-directory normalization: `flat` when the wrapper
was emptied and removed, `stuck` when skipped entries remained and
`data_subdir.rmdir()` raised `OSError` on the non-empty directory. Both
carry the final target-directory entries and the warned names. -/
inductive RestructureOut where
  | flat (parent : List (String × FSTree)) (warns : List String)
  | stuck (parent : List (String × FSTree)) (warns : List String)

/-- Embedding of the nested-`data` restructuring block of
`MultiWOZDownloader.extract_zip`: `pes` are the entries of the extract
directory (holding the wrapper entry `data` with entries `des`). -/
def restructure (pes des : List (String × FSTree)) : RestructureOut :=
  let r := moveEntries des pes des
  match r.2.1 with
  | [] => .flat (removeEntry r.1 "data") r.2.2
  | d :: dr => .stuck (setEntry r.1 "data" (.dir (d :: dr))) r.2.2

/-- Application of the restructuring block at the extract directory's
path, with the events it logs. -/
def restructureAt (ep : List String) (fs : FSTree) : Res Unit :=
  match fs.lookup (ep ++ ["data"]) with
  | none => ⟨.ok (), fs, []⟩
  | some (.file _) => ⟨.err "NotADirectoryError", fs, [.info "Restructuring"]⟩
  | some (.dir des) =>
      match fs.lookup ep with
      | some (.dir pes) =>
          match restructure pes des with
          | .flat parent warns =>
              match putTree ep (.dir parent) fs with
              | some fs2 =>
                  ⟨.ok (), fs2,
                   [.info "Restructuring"] ++ warns.map Event.warnSkip ++
                     [.info "Restructured"]⟩
              | none => ⟨.err "FileNotFoundError", fs, [.info "Restructuring"]⟩
          | .stuck parent warns =>
              match putTree ep (.dir parent) fs with
              | some fs2 =>
                  ⟨.err "OSError", fs2,
                   [.info "Restructuring"] ++ warns.map Event.warnSkip⟩
              | none => ⟨.err "FileNotFoundError", fs, [.info "Restructuring"]⟩
      | _ => ⟨.err "NotADirectoryError", fs, [.info "Restructuring"]⟩

/-- Embedding of `MultiWOZDownloader.extract_zip`: opens the staged
archive (raising `BadZipFile` unless the file holds a zip), extracts all
members into the extract directory, then flattens a nested `data/`
wrapper. -/
def extract_zip (zp ep : List String) (fs : FSTree) : Res Unit :=
  match fs.lookup zp with
  | some (.file (.zip entries)) =>
      match extractAll entries ep fs with
      | .ok fs1 =>
          let r := restructureAt ep fs1
          ⟨r.out, r.fs, [.extractStart, .info "Extracted"] ++ r.events⟩
      | .error fs1 => ⟨.err "ExtractionError", fs1, [.extractStart]⟩
  | _ => ⟨.err "BadZipFile", fs, [.extractStart]⟩

/-- The three partitions the HuggingFace hub exposes for
`multi_woz_v22`, each an ordered sequence of dialogue records. -/
structure HFData where
  train : List Json
  validation : List Json
  test : List Json

/-- Iteration order of `split_mapping.items()` (Python dict insertion
order), already carrying each partition's records under its canonical
local split name. -/
def hfPairs (ds : HFData) : List (String × List Json) :=
  [("train", ds.train), ("dev", ds.validation), ("test", ds.test)]

/-- One iteration of the fallback's split loop: create the canonical
split directory and serialize the partition as `dialogues_001.json`. -/
def hfSplitStep (fs : FSTree) (s : String) (recs : List Json) :
    Option (FSTree × Event) :=
  match mkdir1 [extractName, s] fs with
  | none => none
  | some fs1 =>
      match writeFile [extractName, s, "dialogues_001.json"]
          (.plain (.jsonText (.arr recs))) fs1 with
      | none => none
      | some fs2 => some (fs2, .saved s recs.length)

/-- The fallback's loop over the remapped splits; any raised exception is
logged and re-raised. -/
def hfLoop : List (String × List Json) → FSTree → List Event → Res Unit
  | [], fs, evs => ⟨.ok (), fs, evs ++ [.info "HF download complete"]⟩
  | (s, recs) :: rest, fs, evs =>
      match hfSplitStep fs s recs with
      | some (fs1, ev) => hfLoop rest fs1 (evs ++ [ev])
      | none => ⟨.err "FallbackError", fs, evs ++ [.errorLog "HF failed"]⟩

/-- Embedding of `MultiWOZDownloader.download_from_huggingface`: calls
`load_dataset` (the `hf` parameter is its outcome; `none` means it
raised), creates the output directory, and materializes each partition
under its canonical split name. -/
def download_from_huggingface (hf : Option HFData) (fs : FSTree) : Res Unit :=
  match hf with
  | none => ⟨.err "FallbackError", fs, [.hfLoad, .errorLog "HF failed"]⟩
  | some ds =>
      match mkdirp [extractName] fs with
      | none => ⟨.err "FallbackError", fs, [.hfLoad, .errorLog "HF failed"]⟩
      | some fs1 => hfLoop (hfPairs ds) fs1 [.hfLoad]

/-- Extraction step of `download_multiwoz` followed by the zip-file
cleanup (`if zip_path.exists(): zip_path.unlink()`). -/
def extractAndCleanup (fs : FSTree) (evs : List Event) : Res (List String) :=
  match extract_zip [zipName] [extractName] fs with
  | ⟨.ok _, fs2, evs2⟩ =>
      match fs2.lookup [zipName] with
      | some (.file _) =>
          ⟨.ok [extractName], erasePath [zipName] fs2,
           evs ++ evs2 ++ [.info "Cleaned up zip file"]⟩
      | some (.dir _) => ⟨.err "IsADirectoryError", fs2, evs ++ evs2⟩
      | none => ⟨.ok [extractName], fs2, evs ++ evs2⟩
  | ⟨.err m, fs2, evs2⟩ => ⟨.err m, fs2, evs ++ evs2⟩

/-- Embedding of `MultiWOZDownloader.download_multiwoz`: cache check, then
primary fetch (skipped when an archive is already staged), extraction and
cleanup, with the HuggingFace fallback on fetch failure. -/
def download_multiwoz (net : FetchOutcome) (hf : Option HFData)
    (fs : FSTree) : Res (List String) :=
  if (fs.lookup [extractName]).isSome && is_valid_dataset fs [extractName] then
    ⟨.ok [extractName], fs, [.info "MultiWOZ dataset already exists"]⟩
  else if (fs.lookup [zipName]).isSome then
    extractAndCleanup fs []
  else
    match download_file net multiwozURL [zipName] fs with
    | ⟨.ok _, fs1, evs1⟩ => extractAndCleanup fs1 evs1
    | ⟨.err _, fs1, evs1⟩ =>
        match download_from_huggingface hf fs1 with
        | ⟨.ok _, fs2, evs2⟩ =>
            ⟨.ok [extractName], fs2,
             evs1 ++ [.errorLog "Failed to download from official URL"] ++ evs2⟩
        | ⟨.err m, fs2, evs2⟩ =>
            ⟨.err m, fs2,
             evs1 ++ [.errorLog "Failed to download from official URL"] ++ evs2⟩

/-- The statistics dictionary built by `verify_dataset` (the services set
is kept as a duplicate-free list in insertion order; the final
`list(...)` conversion is the identity here). -/
structure Stats where
  total_conversations : Nat
  total_dialogue_files : Nat
  splits_found : List String
  has_dialog_acts : Bool
  has_schema : Bool
  sample_services : List Json

/-- Initial value of the statistics dictionary. -/
def initStats : Stats := ⟨0, 0, [], false, false, []⟩

/-- Test whether one character list begins with another. -/
def listStarts : List Char → List Char → Bool
  | [], _ => true
  | _ :: _, [] => false
  | a :: p, b :: q => a == b && listStarts p q

/-- Test whether one character list occurs inside another (Python
substring membership). -/
def listHasSub (pat : List Char) (s : List Char) : Bool :=
  listStarts pat s ||
    match s with
    | [] => false
    | _ :: r => listHasSub pat r

/-- Test for the glob pattern `dialogues_*.json`: the name starts with
`dialogues_`, ends with `.json`, and is long enough for the two parts not
to overlap (which makes the conjunction equivalent to the pattern). -/
def matchesDialoguePattern (s : String) : Bool :=
  listStarts "dialogues_".toList s.toList &&
  listStarts ".json".toList.reverse s.toList.reverse &&
  15 ≤ s.toList.length

/-- Embedding of `json.load(open(f))` on a directory entry: a directory
raises `IsADirectoryError` (an `OSError`), non-JSON text raises
`JSONDecodeError`; both are represented as `none`. -/
def readJson : FSTree → Option Json
  | .file (.plain (.jsonText j)) => some j
  | _ => none

/-- Embedding of the Python expression `"services" in v`: key test on a
dict, membership on a list, substring test on a string; `none` is the
`TypeError` raised on the remaining types. -/
def pyContainsServices : Json → Option Bool
  | .obj kvs => some (kvs.any (fun kv => kv.1 = "services"))
  | .arr xs => some (xs.any (fun x => match x with
      | .str s => s = "services"
      | _ => false))
  | .str s => some (listHasSub "services".toList s.toList)
  | _ => none

/-- Lookup of a field in a decoded JSON object. -/
def getField : List (String × Json) → String → Option Json
  | [], _ => none
  | (k, v) :: r, n => if k = n then some v else getField r n

/-- Embedding of the Python expression `v["services"]` after a successful
`in` test: only a dict supports string indexing, every other type raises
`TypeError` (represented as `none`). -/
def pyGetServices : Json → Option Json
  | .obj kvs => getField kvs "services"
  | _ => none

/-- Test for Python hashability of a decoded JSON value (lists and dicts
are unhashable and make `set.update` raise `TypeError`). -/
def pyHashable : Json → Bool
  | .arr _ => false
  | .obj _ => false
  | _ => true

/-- Embedding of Python iteration over a decoded JSON value: elements of a
list, characters of a string, keys of a dict; `none` is the `TypeError`
on the non-iterable types. -/
def pyIterToList : Json → Option (List Json)
  | .arr xs => some xs
  | .str s => some (s.toList.map (fun c => Json.str c.toString))
  | .obj kvs => some (kvs.map (fun kv => Json.str kv.1))
  | _ => none

/-- Insertion into the set model: a value already present is not added
again. -/
def insertNew (s : List Json) (v : Json) : List Json :=
  if s.contains v then s else s ++ [v]

/-- Embedding of `stats["sample_services"].update(v)`: iterates `v` and
adds its hashable elements; `none` is the raised `TypeError` when `v` is
not iterable or an element is unhashable. -/
def setUpdate (s : List Json) (v : Json) : Option (List Json) :=
  match pyIterToList v with
  | none => none
  | some xs => if xs.all pyHashable then some (xs.foldl insertNew s) else none

/-- Processing of one expected split inside `verify_dataset`'s loop:
returns the updated statistics (or `none` when an uncaught exception
propagates) together with the emitted log events. -/
def processSplit (fs : FSTree) (root : List String) (split : String)
    (st : Stats) : Option Stats × List Event :=
  match fs.lookup (root ++ [split]) with
  | some (.dir es) =>
      let st1 : Stats := { st with splits_found := st.splits_found ++ [split] }
      let dfiles := es.filter (fun e => matchesDialoguePattern e.1)
      let st2 : Stats :=
        { st1 with total_dialogue_files := st1.total_dialogue_files + dfiles.length }
      match dfiles with
      | [] => (some st2, [.info "Found dialogue files"])
      | (name, entry) :: _ =>
          match readJson entry with
          | none => (some st2, [.warnRead name, .info "Found dialogue files"])
          | some (.arr xs) =>
              let st3 : Stats :=
                { st2 with total_conversations := st2.total_conversations + xs.length }
              match xs with
              | [] => (some st3, [.info "Found dialogue files"])
              | x :: _ =>
                  match pyContainsServices x with
                  | none => (none, [])
                  | some false => (some st3, [.info "Found dialogue files"])
                  | some true =>
                      match pyGetServices x with
                      | none => (none, [])
                      | some sv =>
                          match setUpdate st3.sample_services sv with
                          | none => (none, [])
                          | some ss =>
                              (some { st3 with sample_services := ss },
                               [.info "Found dialogue files"])
          | some _ => (some st2, [.info "Found dialogue files"])
  | _ => (some st, [])

/-- The loop of `verify_dataset` over the expected splits; a propagated
exception aborts it. -/
def verifyLoop : List String → FSTree → List String → Stats → List Event →
    Option Stats × List Event
  | [], _, _, st, evs => (some st, evs)
  | s :: rest, fs, root, st, evs =>
      match processSplit fs root s st with
      | (some st1, e1) => verifyLoop rest fs root st1 (evs ++ e1)
      | (none, e1) => (none, evs ++ e1)

/-- Embedding of `MultiWOZDownloader.verify_dataset`: statistics over the
expected splits, then the sidecar-file flags; `none` in the first
component is an uncaught exception escaping the call. -/
def verify_dataset (fs : FSTree) (root : List String) :
    Option Stats × List Event :=
  match verifyLoop ["train", "dev", "test"] fs root initStats
      [.info "Verifying dataset"] with
  | (some st, evs) =>
      (some { st with
          has_dialog_acts := (fs.lookup (root ++ ["dialog_acts.json"])).isSome,
          has_schema := (fs.lookup (root ++ ["schema.json"])).isSome },
       evs ++ [.info "Dataset verification complete"])
  | (none, evs) => (none, evs)

/-- Fixture for the C1 witness: a dataset root with the three canonical
split directories present. -/
def c1fs : FSTree :=
  .dir [(extractName, .dir [("train", .dir []), ("dev", .dir []), ("test", .dir [])])]

/-- Fixture refuting C2 as stated: the three canonical split names exist
under the root, but as regular files, not as subdirectories. -/
def c2fs : FSTree :=
  .dir [(extractName, .dir [("train", .file (.plain (.raw "x"))),
                            ("dev", .file (.plain (.raw "x"))),
                            ("test", .file (.plain (.raw "x")))])]

/-- Fixture exhibiting the C4 bug: the archive carries `data/x.json` and
`data/y.json`, while the extraction target already holds an entry named
`x.json`. -/
def c4fs : FSTree :=
  .dir [(zipName, .file (.zip [⟨["data", "x.json"], .jsonText (.str "new")⟩,
                               ⟨["data", "y.json"], .jsonText (.str "other")⟩])),
        (extractName, .dir [("x.json", .file (.plain (.jsonText (.str "old"))))])]

/-- Fixture for the C5 witness: wrapper entries of a `data/train/...`
archive layout. -/
def c5des : List (String × FSTree) :=
  [("train", .dir [("dialogues_001.json", .file (.plain (.jsonText (.arr []))))])]

/-- Fixture for the C5 witness: the extract directory right after
extraction, holding the wrapper and one pre-existing sibling file. -/
def c5pes : List (String × FSTree) :=
  [("data", .dir c5des), ("readme.txt", .file (.plain (.raw "r")))]

/-- Fixture for the C5 witness: a staged archive with the top-level
`data/train/...` layout of end-to-end scenario 3. -/
def c5zipfs : FSTree :=
  .dir [(zipName,
         .file (.zip [⟨["data", "train", "dialogues_001.json"], .jsonText (.arr [])⟩]))]

/-- Fixture for the C8 witness: a `train` split whose only dialogue file
holds two records, the first carrying two services. -/
def c8fs : FSTree :=
  .dir [("train", .dir [("dialogues_001.json",
          .file (.plain (.jsonText (.arr
            [Json.obj [("services", Json.arr [Json.str "hotel", Json.str "taxi"])],
             Json.null]))))])]

/-- Fixture refuting C9's universality: a dataset whose `train` sample
parses fine as a JSON array, but whose first record carries a
non-iterable `services` value. -/
def c9fs : FSTree :=
  .dir [(extractName,
         .dir [("train", .dir [("dialogues_001.json",
                 .file (.plain (.jsonText (.arr [Json.obj [("services", Json.num 5)]]))))]),
               ("dev", .dir []),
               ("test", .dir [])])]

/-- Fixture for the C9 witness: the `train` sample is text that is not
valid JSON; `dev` and `test` are empty split directories. -/
def c9wfs : FSTree :=
  .dir [("train", .dir [("dialogues_001.json", .file (.plain (.raw "not json")))]),
        ("dev", .dir []),
        ("test", .dir [])]

/-- Two paths diverge when they differ at some component before either
ends; an operation at one path cannot affect lookups at a diverging
path. -/
def Diverge : List String → List String → Prop
  | a :: p, b :: q => a ≠ b ∨ (a = b ∧ Diverge p q)
  | _, _ => False

/-- Fixture for the C6 witness: concrete partitions of the alternate
source (one train record, one validation record, no test record). -/
def c6ds : HFData := ⟨[Json.str "a"], [Json.str "b"], []⟩

/-- Fixture for the C6 witness: the dataset root the fallback builds from
an empty target directory. -/
def c6out : FSTree :=
  .dir [(extractName, .dir
    [("train", .dir [("dialogues_001.json",
        .file (.plain (.jsonText (.arr [Json.str "a"]))))]),
     ("dev", .dir [("dialogues_001.json",
        .file (.plain (.jsonText (.arr [Json.str "b"]))))]),
     ("test", .dir [("dialogues_001.json",
        .file (.plain (.jsonText (.arr []))))])])]

/-- Fixture for the C6 witness: the events of that fallback run. -/
def c6evs : List Event :=
  [.hfLoad, .saved "train" 1, .saved "dev" 1, .saved "test" 0,
   .info "HF download complete"]

/-- Fixture for the C10 witness: a target whose `train` split already
holds a `dialogues_001.json` with old content. -/
def c10fs : FSTree :=
  .dir [(extractName, .dir [("train", .dir [("dialogues_001.json",
          .file (.plain (.raw "old")))])])]

/-- Fixture for the C10 witness: concrete partitions for the overwrite
run. -/
def c10ds : HFData := ⟨[Json.null], [], []⟩

/-- Fixture for the C10 witness: the dataset root after the overwrite
run. -/
def c10out : FSTree :=
  .dir [(extractName, .dir
    [("train", .dir [("dialogues_001.json",
        .file (.plain (.jsonText (.arr [Json.null]))))]),
     ("dev", .dir [("dialogues_001.json",
        .file (.plain (.jsonText (.arr []))))]),
     ("test", .dir [("dialogues_001.json",
        .file (.plain (.jsonText (.arr []))))])])]

/-- Fixture for the C10 witness: the events of the overwrite run. -/
def c10evs : List Event :=
  [.hfLoad, .saved "train" 1, .saved "dev" 0, .saved "test" 0,
   .info "HF download complete"]

/-- Filesystem state right after a failed primary fetch: the partially
streamed destination file when the failure left one, else the unchanged
tree. -/
def stagedAfterFailure (po : Option FileData) (es : List (String × FSTree)) : FSTree :=
  match po with
  | none => .dir es
  | some d => .dir (setEntry es zipName (.file d))

/-- Fixture for the C3 witness: an empty target directory. -/
def c3es : List (String × FSTree) := []

/-- Fixture for the C3 witness: concrete partitions the fallback serves
after the simulated fetch failure. -/
def c3ds : HFData := ⟨[], [Json.str "v"], []⟩

/-- Filesystem carried by an `extractAll` result, successful or not. -/
def exceptFs : Except FSTree FSTree → FSTree
  | .ok f => f
  | .error f => f

/-- Fixture for the C7 witness: a staged archive that is not a valid
zip file. -/
def c7fs : FSTree := .dir [(zipName, .file (.plain (.raw "corrupt")))]

/-! Basic lemmas about directory-entry operations. -/

@[simp]
theorem getEntry_setEntry_self (es : List (String × FSTree)) (n : String) (t : FSTree) :
    getEntry (setEntry es n t) n = some t := by
  induction es with
  | nil => simp [setEntry, getEntry]
  | cons e r ih =>
    obtain ⟨m, u⟩ := e
    by_cases h : m = n
    · simp [setEntry, h, getEntry]
    · simp [setEntry, h, getEntry, ih]

theorem getEntry_setEntry_ne (es : List (String × FSTree)) {n m : String}
    (h : n ≠ m) (t : FSTree) : getEntry (setEntry es n t) m = getEntry es m := by
  induction es with
  | nil => simp [setEntry, getEntry, h]
  | cons e r ih =>
    obtain ⟨k, u⟩ := e
    by_cases hk : k = n
    · subst hk; simp [setEntry, getEntry, h]
    · simp [setEntry, hk, getEntry, ih]

theorem setEntry_of_getEntry_none {es : List (String × FSTree)} {n : String}
    (h : getEntry es n = none) (t : FSTree) : setEntry es n t = es ++ [(n, t)] := by
  induction es with
  | nil => simp [setEntry]
  | cons e r ih =>
    obtain ⟨m, u⟩ := e
    by_cases hm : m = n
    · simp [getEntry, hm] at h
    · simp [getEntry, hm] at h
      simp [setEntry, hm, ih h]

theorem setEntry_of_getEntry_self {es : List (String × FSTree)} {n : String} {t : FSTree}
    (h : getEntry es n = some t) : setEntry es n t = es := by
  induction es with
  | nil => simp [getEntry] at h
  | cons e r ih =>
    obtain ⟨m, u⟩ := e
    by_cases hm : m = n
    · subst hm
      simp [getEntry] at h
      simp [setEntry, h]
    · simp [getEntry, hm] at h
      simp [setEntry, hm, ih h]

@[simp]
theorem getEntry_removeEntry_self (es : List (String × FSTree)) (n : String) :
    getEntry (removeEntry es n) n = none := by
  induction es with
  | nil => simp [removeEntry, getEntry]
  | cons e r ih =>
    obtain ⟨m, u⟩ := e
    by_cases hm : m = n
    · simp [removeEntry, hm, ih]
    · simp [removeEntry, hm, getEntry, ih]

theorem getEntry_removeEntry_ne (es : List (String × FSTree)) {n m : String}
    (h : n ≠ m) : getEntry (removeEntry es n) m = getEntry es m := by
  induction es with
  | nil => simp [removeEntry]
  | cons e r ih =>
    obtain ⟨k, u⟩ := e
    by_cases hk : k = n
    · subst hk; simp [removeEntry, getEntry, h, ih]
    · simp [removeEntry, hk, getEntry, ih]

theorem getEntry_append_some {es fs : List (String × FSTree)} {n : String} {t : FSTree}
    (h : getEntry es n = some t) : getEntry (es ++ fs) n = some t := by
  induction es with
  | nil => simp [getEntry] at h
  | cons e r ih =>
    obtain ⟨m, u⟩ := e
    by_cases hm : m = n
    · simp [getEntry, hm] at h ⊢; exact h
    · simp [getEntry, hm] at h ⊢; exact ih h

theorem getEntry_append_none {es : List (String × FSTree)} {n : String}
    (h : getEntry es n = none) (fs : List (String × FSTree)) :
    getEntry (es ++ fs) n = getEntry fs n := by
  induction es with
  | nil => simp
  | cons e r ih =>
    obtain ⟨m, u⟩ := e
    by_cases hm : m = n
    · simp [getEntry, hm] at h
    · simp [getEntry, hm] at h ⊢; exact ih h

theorem getEntry_eq_none_iff {es : List (String × FSTree)} {n : String} :
    getEntry es n = none ↔ n ∉ es.map Prod.fst := by
  induction es with
  | nil => simp [getEntry]
  | cons e r ih =>
    obtain ⟨m, u⟩ := e
    by_cases hm : m = n
    · subst hm; simp [getEntry]
    · simp [getEntry, hm, ih, Ne.symm hm]

theorem mem_removeEntry {es : List (String × FSTree)} {n : String} {e : String × FSTree}
    (h : e ∈ removeEntry es n) : e ∈ es ∧ e.1 ≠ n := by
  induction es with
  | nil => simp [removeEntry] at h
  | cons f r ih =>
    obtain ⟨m, u⟩ := f
    by_cases hm : m = n
    · simp [removeEntry, hm] at h
      exact ⟨List.mem_cons_of_mem _ (ih h).1, (ih h).2⟩
    · simp [removeEntry, hm] at h
      rcases h with h | h
      · subst h; exact ⟨List.mem_cons_self _ _, hm⟩
      · exact ⟨List.mem_cons_of_mem _ (ih h).1, (ih h).2⟩

theorem removeEntry_of_names {es : List (String × FSTree)} {n : String}
    (h : ∀ e ∈ es, e.1 ≠ n) : removeEntry es n = es := by
  induction es with
  | nil => simp [removeEntry]
  | cons e r ih =>
    obtain ⟨m, u⟩ := e
    have hm : m ≠ n := h (m, u) (List.mem_cons_self _ _)
    simp [removeEntry, hm]
    exact ih (fun f hf => h f (List.mem_cons_of_mem _ hf))

theorem removeEntry_append (es fs : List (String × FSTree)) (n : String) :
    removeEntry (es ++ fs) n = removeEntry es n ++ removeEntry fs n := by
  induction es with
  | nil => simp [removeEntry]
  | cons e r ih =>
    obtain ⟨m, u⟩ := e
    by_cases hm : m = n
    · simp [removeEntry, hm, ih]
    · simp [removeEntry, hm, ih]

theorem nfilesE_append (es fs : List (String × FSTree)) :
    nfilesE (es ++ fs) = nfilesE es + nfilesE fs := by
  induction es with
  | nil => simp [nfilesE]
  | cons e r ih => simp [nfilesE, ih]; omega

theorem nnodesE_append (es fs : List (String × FSTree)) :
    nnodesE (es ++ fs) = nnodesE es + nnodesE fs := by
  induction es with
  | nil => simp [nnodesE]
  | cons e r ih => simp [nnodesE, ih]; omega

theorem nfilesE_removeEntry {es : List (String × FSTree)} {n : String} {t : FSTree}
    (hnod : (es.map Prod.fst).Nodup) (h : getEntry es n = some t) :
    nfilesE (removeEntry es n) + t.nfiles = nfilesE es := by
  induction es with
  | nil => simp [getEntry] at h
  | cons e r ih =>
    obtain ⟨m, u⟩ := e
    simp only [List.map_cons, List.nodup_cons] at hnod
    by_cases hm : m = n
    · subst hm
      simp [getEntry] at h
      subst h
      have : ∀ f ∈ r, f.1 ≠ m := by
        intro f hf he
        exact hnod.1 (he ▸ List.mem_map_of_mem Prod.fst hf)
      simp [removeEntry, removeEntry_of_names this, nfilesE]
      omega
    · simp [getEntry, hm] at h
      simp [removeEntry, hm, nfilesE]
      have := ih hnod.2 h
      omega

theorem nnodesE_removeEntry {es : List (String × FSTree)} {n : String} {t : FSTree}
    (hnod : (es.map Prod.fst).Nodup) (h : getEntry es n = some t) :
    nnodesE (removeEntry es n) + t.nnodes = nnodesE es := by
  induction es with
  | nil => simp [getEntry] at h
  | cons e r ih =>
    obtain ⟨m, u⟩ := e
    simp only [List.map_cons, List.nodup_cons] at hnod
    by_cases hm : m = n
    · subst hm
      simp [getEntry] at h
      subst h
      have : ∀ f ∈ r, f.1 ≠ m := by
        intro f hf he
        exact hnod.1 (he ▸ List.mem_map_of_mem Prod.fst hf)
      simp [removeEntry, removeEntry_of_names this, nnodesE]
      omega
    · simp [getEntry, hm] at h
      simp [removeEntry, hm, nnodesE]
      have := ih hnod.2 h
      omega

/-! Lemmas about path lookups. -/

theorem lookup_pair_isSome {fs : FSTree} {n s : String}
    (h : (fs.lookup [n, s]).isSome = true) : (fs.lookup [n]).isSome = true := by
  cases fs with
  | file d => simp [FSTree.lookup] at h
  | dir es =>
    simp only [FSTree.lookup] at h ⊢
    cases hg : getEntry es n with
    | none => rw [hg] at h; simp at h
    | some c => simp

/-! Claim C1: the cache-hit path of `download_multiwoz`. -/

/-- C1: whenever the dataset root already satisfies `is_valid_dataset`,
`download_multiwoz` returns that root immediately with the filesystem
unchanged, emitting only the cache-hit log line — in particular zero
network events (no HTTP fetch and no fallback retrieval), whatever the
network and HuggingFace oracles would have answered; hence a repeated
invocation against an already-valid dataset performs no network call. -/
theorem download_multiwoz_cache_hit (net : FetchOutcome) (hf : Option HFData)
    (fs : FSTree) (h : is_valid_dataset fs [extractName] = true) :
    download_multiwoz net hf fs
      = ⟨.ok [extractName], fs, [.info "MultiWOZ dataset already exists"]⟩ ∧
    (download_multiwoz net hf fs).events.filter Event.isNetwork = [] := by
  have htr : (fs.lookup [extractName, "train"]).isSome = true := by
    simp [is_valid_dataset] at h
    simpa using h.1
  have hex : (fs.lookup [extractName]).isSome = true := lookup_pair_isSome htr
  have hcond : ((fs.lookup [extractName]).isSome && is_valid_dataset fs [extractName]) = true := by
    rw [hex, h]; rfl
  constructor
  · simp [download_multiwoz, hcond]
  · simp [download_multiwoz, hcond, List.filter, Event.isNetwork]

/-- Witness for C1 at a concrete valid dataset root. -/
theorem download_multiwoz_cache_hit_witness :
    download_multiwoz (.failure none) none c1fs
      = ⟨.ok [extractName], c1fs, [.info "MultiWOZ dataset already exists"]⟩ ∧
    (download_multiwoz (.failure none) none c1fs).events.filter Event.isNetwork = [] :=
  download_multiwoz_cache_hit (.failure none) none c1fs (by rfl)

/-! Claim C2: what `is_valid_dataset` actually tests. -/

/-- Counterexample to C2 as stated: `is_valid_dataset` is not equivalent
to the three canonical split names existing as subdirectories — on a root
where `train`, `dev` and `test` are regular files the check still returns
true, because the source tests bare existence (`Path.exists`), not
directory-ness. -/
theorem is_valid_dataset_not_dirs_counterexample :
    ¬ (is_valid_dataset c2fs [extractName] = true ↔
        ∀ s ∈ (["train", "dev", "test"] : List String),
          ∃ es, c2fs.lookup ([extractName] ++ [s]) = some (.dir es)) := by
  intro h
  obtain ⟨es, hes⟩ := (h.mp rfl) "train" (by simp)
  have : c2fs.lookup ([extractName] ++ ["train"]) = some (.file (.plain (.raw "x"))) := rfl
  rw [this] at hes
  simp at hes

/-- C2 amended: `is_valid_dataset` returns true iff each of the three
canonical split names exists as an entry (file or directory) under the
root; the test depends only on entry existence, so it reads no file
contents. -/
theorem is_valid_dataset_iff_exists (fs : FSTree) (root : List String) :
    is_valid_dataset fs root = true ↔
      ∀ s ∈ (["train", "dev", "test"] : List String),
        (fs.lookup (root ++ [s])).isSome = true := by
  simp [is_valid_dataset]

/-! Claim C4: the collision path of the wrapper flattening. -/

/-- C4 evaluated at the failing input: the colliding entry is indeed
skipped (the pre-existing destination file keeps its old content, exactly
one warning is logged for it, and the non-colliding entry is still
moved), but normalization then aborts — `data_subdir.rmdir()` raises
`OSError` because the skipped entry is still inside the wrapper — so
`extract_zip` fails instead of returning success, contradicting the
claim's "does not abort the whole normalization". -/
theorem extract_zip_collision_aborts :
    (extract_zip [zipName] [extractName] c4fs).fs.lookup [extractName, "x.json"]
        = some (.file (.plain (.jsonText (.str "old")))) ∧
    ((extract_zip [zipName] [extractName] c4fs).events.filter
        (fun e => e == Event.warnSkip "x.json")).length = 1 ∧
    (extract_zip [zipName] [extractName] c4fs).fs.lookup [extractName, "y.json"]
        = some (.file (.plain (.jsonText (.str "other")))) ∧
    ((extract_zip [zipName] [extractName] c4fs).fs.lookup [extractName, "data", "x.json"]).isSome
        = true ∧
    (extract_zip [zipName] [extractName] c4fs).out = .err "OSError" :=
  ⟨rfl, rfl, rfl, rfl, rfl⟩

/-! Claim C5: collision-free wrapper flattening. -/

theorem moveEntries_clean (items : List (String × FSTree)) :
    ∀ pes dleft, (items.map Prod.fst).Nodup →
      (∀ n ∈ items.map Prod.fst, getEntry pes n = none) →
      moveEntries items pes dleft
        = (pes ++ items, (items.map Prod.fst).foldl removeEntry dleft, []) := by
  induction items with
  | nil => intro pes dleft _ _; simp [moveEntries]
  | cons e rest ih =>
    intro pes dleft hnod hfresh
    obtain ⟨n, t⟩ := e
    have hn : getEntry pes n = none := hfresh n (by simp)
    simp only [List.map_cons, List.nodup_cons] at hnod
    have hfresh2 : ∀ m ∈ rest.map Prod.fst, getEntry (pes ++ [(n, t)]) m = none := by
      intro m hm
      rw [getEntry_append_none (hfresh m (by simp [hm]))]
      have : n ≠ m := fun he => hnod.1 (he ▸ hm)
      simp [getEntry, this]
    simp only [moveEntries, hn, Option.isSome_none, Bool.false_eq_true, if_false,
      setEntry_of_getEntry_none hn]
    rw [ih _ _ hnod.2 hfresh2]
    simp [List.foldl_cons]

theorem foldl_removeEntry_nil {d : List (String × FSTree)} {ns : List String}
    (h : ∀ e ∈ d, e.1 ∈ ns) : ns.foldl removeEntry d = [] := by
  induction ns generalizing d with
  | nil =>
    cases d with
    | nil => rfl
    | cons e r => exact absurd (h e (List.mem_cons_self _ _)) (by simp)
  | cons n r ih =>
    simp only [List.foldl_cons]
    refine ih (fun e he => ?_)
    obtain ⟨hed, hne⟩ := mem_removeEntry he
    rcases List.mem_cons.mp (h e hed) with h1 | h1
    · exact absurd h1 hne
    · exact h1

theorem getEntry_mem_names {es : List (String × FSTree)} {n : String} {t : FSTree}
    (h : getEntry es n = some t) : n ∈ es.map Prod.fst := by
  by_contra hc
  rw [getEntry_eq_none_iff.mpr hc] at h
  cases h

/-- C5: when the extract directory's entries `pes` contain a wrapper
entry `data` holding entries `des`, names are unique, and no wrapper
entry collides with an existing destination name, the restructuring
moves every wrapper entry up into the destination, removes the wrapper,
warns about nothing, and preserves the content exactly: the file count is
unchanged and the node count drops by exactly the removed empty wrapper
directory. -/
theorem restructure_no_collision (pes des : List (String × FSTree))
    (hpn : (pes.map Prod.fst).Nodup)
    (hdn : (des.map Prod.fst).Nodup)
    (hdata : getEntry pes "data" = some (.dir des))
    (hfresh : ∀ n ∈ des.map Prod.fst, getEntry pes n = none) :
    restructure pes des = .flat (removeEntry pes "data" ++ des) [] ∧
    getEntry (removeEntry pes "data" ++ des) "data" = none ∧
    (∀ n t, getEntry des n = some t →
      getEntry (removeEntry pes "data" ++ des) n = some t) ∧
    nfilesE (removeEntry pes "data" ++ des) = nfilesE pes ∧
    nnodesE (removeEntry pes "data" ++ des) + 1 = nnodesE pes := by
  have hnodata : ∀ e ∈ des, e.1 ≠ "data" := by
    intro e he heq
    have := hfresh e.1 (List.mem_map_of_mem Prod.fst he)
    rw [heq, hdata] at this
    cases this
  have hdesdata : getEntry des "data" = none := by
    refine getEntry_eq_none_iff.mpr ?_
    intro hm
    obtain ⟨e, he, hee⟩ := List.mem_map.mp hm
    exact hnodata e he hee
  have hmove := moveEntries_clean des pes des hdn hfresh
  have hempty : (des.map Prod.fst).foldl removeEntry des = [] :=
    foldl_removeEntry_nil (fun e he => List.mem_map_of_mem Prod.fst he)
  have hparfix : removeEntry (pes ++ des) "data"
      = removeEntry pes "data" ++ des := by
    rw [removeEntry_append, removeEntry_of_names hnodata]
  refine ⟨?_, ?_, ?_, ?_, ?_⟩
  · simp only [restructure, hmove, hempty, hparfix]
  · rw [getEntry_append_none (getEntry_removeEntry_self pes "data")]
    exact hdesdata
  · intro n t h
    have hmem : n ∈ des.map Prod.fst := getEntry_mem_names h
    have hne : n ≠ "data" := by
      intro he
      have := hfresh n hmem
      rw [he, hdata] at this
      cases this
    have h1 : getEntry (removeEntry pes "data") n = none := by
      rw [getEntry_removeEntry_ne pes (Ne.symm hne)]
      exact hfresh n hmem
    rw [getEntry_append_none h1]
    exact h
  · have h1 := nfilesE_removeEntry hpn hdata
    have h2 : (FSTree.dir des).nfiles = nfilesE des := by simp [FSTree.nfiles]
    rw [nfilesE_append]
    omega
  · have h1 := nnodesE_removeEntry hpn hdata
    have h2 : (FSTree.dir des).nnodes = 1 + nnodesE des := by simp [FSTree.nnodes]
    rw [nnodesE_append]
    omega

/-- Witness for C5: the flattening at a concrete `data/train` layout,
plus end-to-end scenario 3 at `extract_zip` level — afterwards `train/`
sits directly under the root and `data/` is gone. -/
theorem restructure_no_collision_witness :
    (restructure c5pes c5des = .flat (removeEntry c5pes "data" ++ c5des) [] ∧
     getEntry (removeEntry c5pes "data" ++ c5des) "data" = none ∧
     (∀ n t, getEntry c5des n = some t →
       getEntry (removeEntry c5pes "data" ++ c5des) n = some t) ∧
     nfilesE (removeEntry c5pes "data" ++ c5des) = nfilesE c5pes ∧
     nnodesE (removeEntry c5pes "data" ++ c5des) + 1 = nnodesE c5pes) ∧
    (extract_zip [zipName] [extractName] c5zipfs).out = .ok () ∧
    ((extract_zip [zipName] [extractName] c5zipfs).fs.lookup
        [extractName, "train", "dialogues_001.json"]).isSome = true ∧
    (extract_zip [zipName] [extractName] c5zipfs).fs.lookup [extractName, "data"] = none :=
  ⟨restructure_no_collision c5pes c5des (by decide) (by decide) rfl
      (by intro n hn; simp [c5des] at hn; subst hn; rfl),
   rfl, rfl, rfl⟩

/-! Claim C8: the conversation count and service sampling of one split. -/

theorem mem_foldl_insertNew (xs : List Json) (s : List Json) (v : Json)
    (h : v ∈ xs.foldl insertNew s) : v ∈ s ∨ v ∈ xs := by
  induction xs generalizing s with
  | nil => exact Or.inl h
  | cons x r ih =>
    simp only [List.foldl_cons] at h
    rcases ih _ h with h1 | h1
    · unfold insertNew at h1
      split at h1
      · exact Or.inl h1
      · rcases List.mem_append.mp h1 with h2 | h2
        · exact Or.inl h2
        · simp at h2; subst h2; exact Or.inr (List.mem_cons_self _ _)
    · exact Or.inr (List.mem_cons_of_mem _ h1)

/-- C8: for a split present as a directory whose first glob-matching
dialogue file parses as a JSON array, a successful pass of
`verify_dataset`'s split processing adds exactly the array's length to
the conversation count, and every service value it adds comes from
iterating the `services` field of the array's first record. -/
theorem processSplit_first_file_counts (fs : FSTree) (root : List String)
    (split name : String) (es rest' : List (String × FSTree)) (entry : FSTree)
    (xs : List Json) (st st' : Stats) (evs : List Event)
    (hdir : fs.lookup (root ++ [split]) = some (.dir es))
    (hfil : es.filter (fun e => matchesDialoguePattern e.1) = (name, entry) :: rest')
    (hread : readJson entry = some (.arr xs))
    (hok : processSplit fs root split st = (some st', evs)) :
    st'.total_conversations = st.total_conversations + xs.length ∧
    ∀ v ∈ st'.sample_services, v ∈ st.sample_services ∨
      ∃ x sv elems, xs.head? = some x ∧ pyGetServices x = some sv ∧
        pyIterToList sv = some elems ∧ v ∈ elems := by
  cases xs with
  | nil =>
    simp only [processSplit, hdir, hfil, hread, Prod.mk.injEq, Option.some.injEq] at hok
    obtain ⟨hst, _⟩ := hok
    subst hst
    exact ⟨rfl, fun v hv => Or.inl hv⟩
  | cons x xr =>
    simp only [processSplit, hdir, hfil, hread] at hok
    rcases hcs : pyContainsServices x with _ | b
    · simp only [hcs] at hok; simp at hok
    · simp only [hcs] at hok
      cases b with
      | false =>
        simp only [Prod.mk.injEq, Option.some.injEq] at hok
        obtain ⟨hst, _⟩ := hok
        subst hst
        exact ⟨rfl, fun v hv => Or.inl hv⟩
      | true =>
        rcases hgs : pyGetServices x with _ | sv
        · simp only [hgs] at hok; simp at hok
        · simp only [hgs] at hok
          rcases hsu : setUpdate st.sample_services sv with _ | ss
          · rw [hsu] at hok
            simp at hok
          · rw [hsu] at hok
            simp only [Prod.mk.injEq, Option.some.injEq] at hok
            obtain ⟨hst, _⟩ := hok
            subst hst
            refine ⟨rfl, fun v hv => ?_⟩
            simp only at hv
            unfold setUpdate at hsu
            rcases hit : pyIterToList sv with _ | elems
            · simp only [hit] at hsu; cases hsu
            · simp only [hit] at hsu
              split at hsu
              · simp only [Option.some.injEq] at hsu
                subst hsu
                rcases mem_foldl_insertNew elems _ v hv with h1 | h1
                · exact Or.inl h1
                · exact Or.inr ⟨x, sv, elems, rfl, hgs, hit, h1⟩
              · cases hsu

/-- Witness for C8: the split-processing result at a concrete split. -/
theorem processSplit_first_file_counts_witness :
    (⟨2, 1, ["train"], false, false,
        [Json.str "hotel", Json.str "taxi"]⟩ : Stats).total_conversations
      = initStats.total_conversations + 2 ∧
    ∀ v ∈ (⟨2, 1, ["train"], false, false,
        [Json.str "hotel", Json.str "taxi"]⟩ : Stats).sample_services,
      v ∈ initStats.sample_services ∨
      ∃ x sv elems,
        ([Json.obj [("services", Json.arr [Json.str "hotel", Json.str "taxi"])],
          Json.null] : List Json).head? = some x ∧
        pyGetServices x = some sv ∧ pyIterToList sv = some elems ∧ v ∈ elems :=
  processSplit_first_file_counts c8fs [] "train" "dialogues_001.json"
    _ _ _ _ initStats _ _ rfl rfl rfl rfl

/-! Claim C9: exception behavior of `verify_dataset`. -/

/-- Counterexample to C9 as stated: `verify_dataset` does not always
return a report — on a sampled file whose first record's `services`
value is the number 5, `set.update` raises a `TypeError`, which the
`except (json.JSONDecodeError, IOError, KeyError)` clause does not catch,
so the exception escapes the call. -/
theorem verify_dataset_typeerror_counterexample :
    (verify_dataset c9fs [extractName]).1 = none ∧
    ¬ ∀ fs root, ((verify_dataset fs root).1).isSome = true := by
  refine ⟨rfl, fun h => ?_⟩
  have h1 := h c9fs [extractName]
  have h2 : ((verify_dataset c9fs [extractName]).1).isSome = false := rfl
  rw [h2] at h1
  cases h1

theorem verifyLoop_events_mono (ss : List String) (fs : FSTree) (root : List String)
    (st : Stats) (evs : List Event) :
    ∃ tail, (verifyLoop ss fs root st evs).2 = evs ++ tail := by
  induction ss generalizing st evs with
  | nil => exact ⟨[], by simp [verifyLoop]⟩
  | cons s r ih =>
    rcases hps : processSplit fs root s st with ⟨o, e1⟩
    cases o with
    | some st1 =>
      obtain ⟨t2, ht2⟩ := ih st1 (evs ++ e1)
      exact ⟨e1 ++ t2, by simp [verifyLoop, hps, ht2]⟩
    | none => exact ⟨e1, by simp [verifyLoop, hps]⟩

/-- C9 amended: a parse failure (JSON decode error or IO error) on the
sampled dialogue file of the `train` split is caught: it only logs a
warning, the split's file count is still recorded, and the verification
loop continues with the remaining splits exactly as if the sample had
merely been skipped; the warning appears among `verify_dataset`'s
events.  (The original claim's "always returns a ValidationReport" does
not hold: an uncaught `TypeError` from a non-iterable `services` value
can still escape, see the counterexample.) -/
theorem verify_parse_failure_caught (fs : FSTree) (root : List String)
    (es : List (String × FSTree)) (name : String) (entry : FSTree)
    (rest' : List (String × FSTree))
    (hdir : fs.lookup (root ++ ["train"]) = some (.dir es))
    (hfil : es.filter (fun e => matchesDialoguePattern e.1) = (name, entry) :: rest')
    (hbad : readJson entry = none) :
    (∀ st evs splitsRest,
      verifyLoop ("train" :: splitsRest) fs root st evs =
        verifyLoop splitsRest fs root
          { st with splits_found := st.splits_found ++ ["train"],
                    total_dialogue_files := st.total_dialogue_files + (rest'.length + 1) }
          (evs ++ [.warnRead name, .info "Found dialogue files"])) ∧
    Event.warnRead name ∈ (verify_dataset fs root).2 := by
  have hps : ∀ st, processSplit fs root "train" st =
      (some { st with splits_found := st.splits_found ++ ["train"],
                      total_dialogue_files := st.total_dialogue_files + (rest'.length + 1) },
       [.warnRead name, .info "Found dialogue files"]) := by
    intro st
    simp [processSplit, hdir, hfil, hbad]
  have hloop : ∀ st evs splitsRest,
      verifyLoop ("train" :: splitsRest) fs root st evs =
        verifyLoop splitsRest fs root
          { st with splits_found := st.splits_found ++ ["train"],
                    total_dialogue_files := st.total_dialogue_files + (rest'.length + 1) }
          (evs ++ [.warnRead name, .info "Found dialogue files"]) := by
    intro st evs splitsRest
    simp [verifyLoop, hps st]
  refine ⟨hloop, ?_⟩
  unfold verify_dataset
  rw [hloop initStats [.info "Verifying dataset"] ["dev", "test"]]
  obtain ⟨tail, htail⟩ := verifyLoop_events_mono ["dev", "test"] fs root
    { initStats with splits_found := initStats.splits_found ++ ["train"],
                     total_dialogue_files := initStats.total_dialogue_files + (rest'.length + 1) }
    ([.info "Verifying dataset"] ++ [.warnRead name, .info "Found dialogue files"])
  rcases hvl : verifyLoop ["dev", "test"] fs root
      { initStats with splits_found := initStats.splits_found ++ ["train"],
                       total_dialogue_files := initStats.total_dialogue_files + (rest'.length + 1) }
      ([.info "Verifying dataset"] ++ [.warnRead name, .info "Found dialogue files"]) with ⟨o, evs2⟩
  have hevs2 : evs2 = [.info "Verifying dataset"]
      ++ [.warnRead name, .info "Found dialogue files"] ++ tail := by
    rw [hvl] at htail; exact htail
  rw [hvl]
  cases o with
  | some stf => simp [hevs2]
  | none => simp [hevs2]

/-- Witness for C9's amended theorem at a concrete unparseable sample. -/
theorem verify_parse_failure_caught_witness :
    (∀ st evs splitsRest,
      verifyLoop ("train" :: splitsRest) c9wfs [] st evs =
        verifyLoop splitsRest c9wfs []
          { st with splits_found := st.splits_found ++ ["train"],
                    total_dialogue_files := st.total_dialogue_files + (0 + 1) }
          (evs ++ [.warnRead "dialogues_001.json", .info "Found dialogue files"])) ∧
    Event.warnRead "dialogues_001.json" ∈ (verify_dataset c9wfs []).2 :=
  verify_parse_failure_caught c9wfs [] _ "dialogues_001.json" _ [] rfl rfl rfl

/-! Path divergence and preservation lemmas for the tree operations. -/

theorem diverge_extend {p q : List String} (r : List String) (h : Diverge p q) :
    Diverge (p ++ r) q := by
  induction p generalizing q with
  | nil => cases q <;> simp [Diverge] at h
  | cons a p ih =>
    cases q with
    | nil => simp [Diverge] at h
    | cons b q' =>
      simp only [Diverge] at h
      rw [List.cons_append]
      rcases h with h | ⟨he, hd⟩
      · exact Or.inl h
      · exact Or.inr ⟨he, ih hd⟩

@[simp]
theorem FSTree.lookup_nil (t : FSTree) : t.lookup [] = some t := by
  cases t <;> rfl

theorem putTree_lookup_self {p : List String} {t fs fs' : FSTree}
    (h : putTree p t fs = some fs') : fs'.lookup p = some t := by
  induction p generalizing fs fs' with
  | nil =>
    simp [putTree] at h
    subst h
    simp
  | cons n p ih =>
    cases p with
    | nil =>
      cases fs with
      | file d => simp [putTree] at h
      | dir es =>
        simp [putTree] at h
        subst h
        simp [FSTree.lookup, getEntry_setEntry_self]
    | cons m qq =>
      cases fs with
      | file d => simp [putTree] at h
      | dir es =>
        rcases hg : getEntry es n with _ | c
        · simp [putTree, hg] at h
        · simp only [putTree, hg] at h
          rcases hpt : putTree (m :: qq) t c with _ | c2
          · rw [hpt] at h; simp at h
          · rw [hpt] at h
            simp at h
            subst h
            simp [FSTree.lookup, getEntry_setEntry_self]
            exact ih hpt

theorem putTree_lookup_other {p : List String} {t fs fs' : FSTree}
    (h : putTree p t fs = some fs') :
    ∀ q, Diverge p q → fs'.lookup q = fs.lookup q := by
  induction p generalizing fs fs' with
  | nil => intro q hd; cases q <;> simp [Diverge] at hd
  | cons n p ih =>
    intro q hd
    cases q with
    | nil => simp [Diverge] at hd
    | cons b q' =>
      cases fs with
      | file d => cases p <;> simp [putTree] at h
      | dir es =>
        cases p with
        | nil =>
          simp [putTree] at h
          subst h
          simp only [Diverge] at hd
          rcases hd with hne | ⟨heq, hdq⟩
          · simp [FSTree.lookup, getEntry_setEntry_ne es hne]
          · cases q' <;> simp [Diverge] at hdq
        | cons m qq =>
          rcases hg : getEntry es n with _ | c
          · simp [putTree, hg] at h
          · simp only [putTree, hg] at h
            rcases hpt : putTree (m :: qq) t c with _ | c2
            · rw [hpt] at h; simp at h
            · rw [hpt] at h
              simp at h
              subst h
              simp only [Diverge] at hd
              rcases hd with hne | ⟨heq, hdq⟩
              · simp [FSTree.lookup, getEntry_setEntry_ne es hne]
              · subst heq
                simp [FSTree.lookup, getEntry_setEntry_self, hg]
                exact ih hpt q' hdq

theorem putTree_ancestor_dir {r : List String} (hr : r ≠ []) :
    ∀ (q : List String) {t fs fs' : FSTree}, putTree (q ++ r) t fs = some fs' →
      ∃ es, fs'.lookup q = some (.dir es) := by
  intro q
  induction q with
  | nil =>
    intro t fs fs' h
    cases r with
    | nil => exact absurd rfl hr
    | cons n p =>
      cases fs with
      | file d => cases p <;> simp [putTree] at h
      | dir es =>
        cases p with
        | nil =>
          simp [putTree] at h
          subst h
          exact ⟨_, rfl⟩
        | cons m qq =>
          rcases hg : getEntry es n with _ | c
          · simp [putTree, hg] at h
          · simp only [putTree, hg] at h
            rcases hpt : putTree (m :: qq) t c with _ | c2
            · rw [hpt] at h; simp at h
            · rw [hpt] at h
              simp at h
              subst h
              exact ⟨_, rfl⟩
  | cons a q' ih =>
    intro t fs fs' h
    rw [List.cons_append] at h
    cases fs with
    | file d =>
      cases hqr : q' ++ r with
      | nil => exact absurd (List.append_eq_nil.mp hqr).2 hr
      | cons z zs => rw [hqr] at h; simp [putTree] at h
    | dir es =>
      cases hqr : q' ++ r with
      | nil => exact absurd (List.append_eq_nil.mp hqr).2 hr
      | cons z zs =>
        rw [hqr] at h
        rcases hg : getEntry es a with _ | c
        · simp [putTree, hg] at h
        · simp only [putTree, hg] at h
          rcases hpt : putTree (z :: zs) t c with _ | c2
          · rw [hpt] at h; simp at h
          · rw [hpt] at h
            simp at h
            subst h
            obtain ⟨es1, h1⟩ := ih (by rw [hqr]; exact hpt)
            exact ⟨es1, by simp [FSTree.lookup, getEntry_setEntry_self]; exact h1⟩

theorem writeFile_lookup_self {p : List String} {d : FileData} {fs fs' : FSTree}
    (h : writeFile p d fs = some fs') : fs'.lookup p = some (.file d) := by
  unfold writeFile at h
  split at h
  · cases h
  · exact putTree_lookup_self h

theorem writeFile_lookup_other {p : List String} {d : FileData} {fs fs' : FSTree}
    (h : writeFile p d fs = some fs') :
    ∀ q, Diverge p q → fs'.lookup q = fs.lookup q := by
  unfold writeFile at h
  split at h
  · cases h
  · exact putTree_lookup_other h

theorem writeFile_ancestor_dir {r : List String} (hr : r ≠ []) {q : List String}
    {d : FileData} {fs fs' : FSTree} (h : writeFile (q ++ r) d fs = some fs') :
    ∃ es, fs'.lookup q = some (.dir es) := by
  unfold writeFile at h
  split at h
  · cases h
  · exact putTree_ancestor_dir hr q h

theorem mkdir1_lookup_self {p : List String} {fs fs' : FSTree}
    (h : mkdir1 p fs = some fs') : ∃ es, fs'.lookup p = some (.dir es) := by
  induction p generalizing fs fs' with
  | nil =>
    cases fs with
    | file d => simp [mkdir1] at h
    | dir es =>
      simp [mkdir1] at h
      subst h
      exact ⟨es, by simp⟩
  | cons n p ih =>
    cases p with
    | nil =>
      cases fs with
      | file d => simp [mkdir1] at h
      | dir es =>
        rcases hg : getEntry es n with _ | c
        · simp [mkdir1, hg] at h
          subst h
          exact ⟨[], by simp [FSTree.lookup, getEntry_setEntry_self]⟩
        · cases c with
          | file d => simp [mkdir1, hg] at h
          | dir es2 =>
            simp [mkdir1, hg] at h
            subst h
            exact ⟨es2, by simp [FSTree.lookup, getEntry_setEntry_self]⟩
    | cons m qq =>
      cases fs with
      | file d => simp [mkdir1] at h
      | dir es =>
        rcases hg : getEntry es n with _ | c
        · simp [mkdir1, hg] at h
        · simp only [mkdir1, hg] at h
          rcases hmk : mkdir1 (m :: qq) c with _ | c2
          · rw [hmk] at h; simp at h
          · rw [hmk] at h
            simp at h
            subst h
            obtain ⟨es1, h1⟩ := ih hmk
            exact ⟨es1, by simp [FSTree.lookup, getEntry_setEntry_self]; exact h1⟩

theorem mkdir1_lookup_other {p : List String} {fs fs' : FSTree}
    (h : mkdir1 p fs = some fs') :
    ∀ q, Diverge p q → fs'.lookup q = fs.lookup q := by
  induction p generalizing fs fs' with
  | nil => intro q hd; cases q <;> simp [Diverge] at hd
  | cons n p ih =>
    intro q hd
    cases q with
    | nil => simp [Diverge] at hd
    | cons b q' =>
      cases fs with
      | file d => cases p <;> simp [mkdir1] at h
      | dir es =>
        cases p with
        | nil =>
          rcases hg : getEntry es n with _ | c
          · simp [mkdir1, hg] at h
            subst h
            simp only [Diverge] at hd
            rcases hd with hne | ⟨heq, hdq⟩
            · simp [FSTree.lookup, getEntry_setEntry_ne es hne]
            · cases q' <;> simp [Diverge] at hdq
          · cases c with
            | file d => simp [mkdir1, hg] at h
            | dir es2 =>
              simp [mkdir1, hg] at h
              subst h
              simp only [Diverge] at hd
              rcases hd with hne | ⟨heq, hdq⟩
              · simp [FSTree.lookup, getEntry_setEntry_ne es hne]
              · cases q' <;> simp [Diverge] at hdq
        | cons m qq =>
          rcases hg : getEntry es n with _ | c
          · simp [mkdir1, hg] at h
          · simp only [mkdir1, hg] at h
            rcases hmk : mkdir1 (m :: qq) c with _ | c2
            · rw [hmk] at h; simp at h
            · rw [hmk] at h
              simp at h
              subst h
              simp only [Diverge] at hd
              rcases hd with hne | ⟨heq, hdq⟩
              · simp [FSTree.lookup, getEntry_setEntry_ne es hne]
              · subst heq
                simp [FSTree.lookup, getEntry_setEntry_self, hg]
                exact ih hmk q' hdq

theorem mkdirp_lookup_self {p : List String} {fs fs' : FSTree}
    (h : mkdirp p fs = some fs') : ∃ es, fs'.lookup p = some (.dir es) := by
  induction p generalizing fs fs' with
  | nil =>
    cases fs with
    | file d => simp [mkdirp] at h
    | dir es =>
      simp [mkdirp] at h
      subst h
      exact ⟨es, by simp⟩
  | cons n p ih =>
    cases fs with
    | file d => simp [mkdirp] at h
    | dir es =>
      rcases hg : getEntry es n with _ | c
      · simp only [mkdirp, hg] at h
        rcases hmk : mkdirp p (.dir []) with _ | c2
        · rw [hmk] at h; simp at h
        · rw [hmk] at h
          simp at h
          subst h
          obtain ⟨es1, h1⟩ := ih hmk
          exact ⟨es1, by simp [FSTree.lookup, getEntry_setEntry_self]; exact h1⟩
      · simp only [mkdirp, hg] at h
        rcases hmk : mkdirp p c with _ | c2
        · rw [hmk] at h; simp at h
        · rw [hmk] at h
          simp at h
          subst h
          obtain ⟨es1, h1⟩ := ih hmk
          exact ⟨es1, by simp [FSTree.lookup, getEntry_setEntry_self]; exact h1⟩

theorem mkdirp_lookup_other {p : List String} {fs fs' : FSTree}
    (h : mkdirp p fs = some fs') :
    ∀ q, Diverge p q → fs'.lookup q = fs.lookup q := by
  induction p generalizing fs fs' with
  | nil => intro q hd; cases q <;> simp [Diverge] at hd
  | cons n p ih =>
    intro q hd
    cases q with
    | nil => simp [Diverge] at hd
    | cons b q' =>
      cases fs with
      | file d => simp [mkdirp] at h
      | dir es =>
        rcases hg : getEntry es n with _ | c
        · simp only [mkdirp, hg] at h
          rcases hmk : mkdirp p (.dir []) with _ | c2
          · rw [hmk] at h; simp at h
          · rw [hmk] at h
            simp at h
            subst h
            simp only [Diverge] at hd
            rcases hd with hne | ⟨heq, hdq⟩
            · simp [FSTree.lookup, getEntry_setEntry_ne es hne]
            · subst heq
              simp [FSTree.lookup, getEntry_setEntry_self, hg]
              rw [ih hmk q' hdq]
              cases q' with
              | nil => cases p <;> simp [Diverge] at hdq
              | cons z zs => simp [FSTree.lookup, getEntry]
        · simp only [mkdirp, hg] at h
          rcases hmk : mkdirp p c with _ | c2
          · rw [hmk] at h; simp at h
          · rw [hmk] at h
            simp at h
            subst h
            simp only [Diverge] at hd
            rcases hd with hne | ⟨heq, hdq⟩
            · simp [FSTree.lookup, getEntry_setEntry_ne es hne]
            · subst heq
              simp [FSTree.lookup, getEntry_setEntry_self, hg]
              exact ih hmk q' hdq

theorem mkdirp_sibling_none {p : List String} {m : String} {fs fs' : FSTree}
    (h : mkdirp p fs = some fs') (hn : fs.lookup (p ++ [m]) = none) :
    fs'.lookup (p ++ [m]) = none := by
  induction p generalizing fs fs' with
  | nil =>
    cases fs with
    | file d => simp [mkdirp] at h
    | dir es =>
      simp [mkdirp] at h
      subst h
      exact hn
  | cons n p ih =>
    cases fs with
    | file d => simp [mkdirp] at h
    | dir es =>
      rcases hg : getEntry es n with _ | c
      · simp only [mkdirp, hg] at h
        rcases hmk : mkdirp p (.dir []) with _ | c2
        · rw [hmk] at h; simp at h
        · rw [hmk] at h
          simp at h
          subst h
          have hnil : FSTree.lookup (.dir []) (p ++ [m]) = none := by
            cases p <;> simp [FSTree.lookup, getEntry]
          have := ih hmk hnil
          simp only [List.cons_append, FSTree.lookup, getEntry_setEntry_self]
          exact this
      · simp only [mkdirp, hg] at h
        rcases hmk : mkdirp p c with _ | c2
        · rw [hmk] at h; simp at h
        · rw [hmk] at h
          simp at h
          subst h
          simp only [List.cons_append, FSTree.lookup, hg] at hn
          have := ih hmk hn
          simp only [List.cons_append, FSTree.lookup, getEntry_setEntry_self]
          exact this

theorem erasePath_singleton (n : String) (es : List (String × FSTree)) :
    (erasePath [n] (.dir es)).lookup [n] = none := by
  simp [erasePath, FSTree.lookup, getEntry_removeEntry_self]

/-! Lemmas about the fallback adapter's split loop. -/

theorem hfSplitStep_spec {fs fs' : FSTree} {s : String} {recs : List Json} {ev : Event}
    (h : hfSplitStep fs s recs = some (fs', ev)) :
    ev = .saved s recs.length ∧
    fs'.lookup [extractName, s, "dialogues_001.json"]
      = some (.file (.plain (.jsonText (.arr recs)))) ∧
    (∃ es, fs'.lookup [extractName, s] = some (.dir es)) ∧
    ∀ q, Diverge [extractName, s] q → fs'.lookup q = fs.lookup q := by
  unfold hfSplitStep at h
  rcases hmk : mkdir1 [extractName, s] fs with _ | fs1
  · rw [hmk] at h; cases h
  · simp only [hmk] at h
    rcases hwf : writeFile [extractName, s, "dialogues_001.json"]
        (.plain (.jsonText (.arr recs))) fs1 with _ | fs2
    · rw [hwf] at h; cases h
    · rw [hwf] at h
      simp at h
      obtain ⟨hfs, hev⟩ := h
      subst hfs
      subst hev
      refine ⟨rfl, writeFile_lookup_self hwf, ?_, ?_⟩
      · exact writeFile_ancestor_dir (r := ["dialogues_001.json"]) (by simp) hwf
      · intro q hd
        rw [writeFile_lookup_other hwf q (diverge_extend ["dialogues_001.json"] hd)]
        exact mkdir1_lookup_other hmk q hd

theorem hfLoop_preserves_top (pairs : List (String × List Json)) :
    ∀ (fs : FSTree) (evs : List Event) (x : String) (q : List String),
      x ≠ extractName →
      ((hfLoop pairs fs evs).fs).lookup (x :: q) = fs.lookup (x :: q) := by
  induction pairs with
  | nil => intro fs evs x q _; simp [hfLoop]
  | cons e rest ih =>
    intro fs evs x q hx
    obtain ⟨s, recs⟩ := e
    rcases hst : hfSplitStep fs s recs with _ | r1
    · simp [hfLoop, hst]
    · obtain ⟨fs1, ev⟩ := r1
      simp only [hfLoop, hst]
      rw [ih fs1 (evs ++ [ev]) x q hx]
      exact (hfSplitStep_spec hst).2.2.2 (x :: q) (Or.inl (Ne.symm hx))

theorem hfLoop_events_prefixed (pairs : List (String × List Json)) :
    ∀ (fs : FSTree) (evs : List Event),
      ∃ tail, (hfLoop pairs fs evs).events = evs ++ tail := by
  induction pairs with
  | nil => intro fs evs; exact ⟨[.info "HF download complete"], by simp [hfLoop]⟩
  | cons e rest ih =>
    intro fs evs
    obtain ⟨s, recs⟩ := e
    rcases hst : hfSplitStep fs s recs with _ | r1
    · exact ⟨[.errorLog "HF failed"], by simp [hfLoop, hst]⟩
    · obtain ⟨fs1, ev⟩ := r1
      obtain ⟨t2, ht2⟩ := ih fs1 (evs ++ [ev])
      exact ⟨ev :: t2, by simp [hfLoop, hst, ht2]⟩

theorem hfLoop_no_extractStart (pairs : List (String × List Json)) :
    ∀ (fs : FSTree) (evs : List Event),
      Event.extractStart ∈ (hfLoop pairs fs evs).events →
      Event.extractStart ∈ evs := by
  induction pairs with
  | nil =>
    intro fs evs h
    simp only [hfLoop, List.mem_append] at h
    rcases h with h | h
    · exact h
    · simp at h
  | cons e rest ih =>
    intro fs evs h
    obtain ⟨s, recs⟩ := e
    rcases hst : hfSplitStep fs s recs with _ | r1
    · simp only [hfLoop, hst, List.mem_append] at h
      rcases h with h | h
      · exact h
      · simp at h
    · obtain ⟨fs1, ev⟩ := r1
      simp only [hfLoop, hst] at h
      have h2 := ih fs1 (evs ++ [ev]) h
      rcases List.mem_append.mp h2 with h3 | h3
      · exact h3
      · simp at h3
        rw [(hfSplitStep_spec hst).1] at h3
        cases h3

theorem hf_preserves_top (hf : Option HFData) (fs : FSTree) (x : String)
    (q : List String) (hx : x ≠ extractName) :
    ((download_from_huggingface hf fs).fs).lookup (x :: q) = fs.lookup (x :: q) := by
  cases hf with
  | none => rfl
  | some ds =>
    unfold download_from_huggingface
    rcases hmk : mkdirp [extractName] fs with _ | fs1
    · rfl
    · simp only
      rw [hfLoop_preserves_top (hfPairs ds) fs1 [.hfLoad] x q hx]
      exact mkdirp_lookup_other hmk (x :: q) (Or.inl (Ne.symm hx))

theorem hf_no_extractStart (hf : Option HFData) (fs : FSTree) :
    Event.extractStart ∉ (download_from_huggingface hf fs).events := by
  cases hf with
  | none => simp [download_from_huggingface]
  | some ds =>
    unfold download_from_huggingface
    rcases hmk : mkdirp [extractName] fs with _ | fs1
    · simp
    · simp only
      intro hmem
      have := hfLoop_no_extractStart (hfPairs ds) fs1 [.hfLoad] hmem
      simp at this

theorem hf_hfLoad_mem (hf : Option HFData) (fs : FSTree) :
    Event.hfLoad ∈ (download_from_huggingface hf fs).events := by
  cases hf with
  | none => simp [download_from_huggingface]
  | some ds =>
    unfold download_from_huggingface
    rcases hmk : mkdirp [extractName] fs with _ | fs1
    · simp
    · simp only
      obtain ⟨tail, ht⟩ := hfLoop_events_prefixed (hfPairs ds) fs1 [.hfLoad]
      rw [ht]
      simp

theorem diverge_second {a s1 s2 : String} (h : s1 ≠ s2) (r : List String) :
    Diverge [a, s1] (a :: s2 :: r) := by
  simp only [Diverge]
  tauto

/-- Facts about every successful run of the fallback adapter: each
partition lands as `dialogues_001.json` under its canonical split (the
alternate source's `validation` partition under `dev`), the result passes
`is_valid_dataset`, the events are exactly the load, the three per-split
record counts, and the final log line, and no `validation` directory is
created. -/
theorem hf_success_spec {ds : HFData} {fs fs' : FSTree} {evs : List Event}
    (h : download_from_huggingface (some ds) fs = ⟨.ok (), fs', evs⟩) :
    fs'.lookup [extractName, "train", "dialogues_001.json"]
      = some (.file (.plain (.jsonText (.arr ds.train)))) ∧
    fs'.lookup [extractName, "dev", "dialogues_001.json"]
      = some (.file (.plain (.jsonText (.arr ds.validation)))) ∧
    fs'.lookup [extractName, "test", "dialogues_001.json"]
      = some (.file (.plain (.jsonText (.arr ds.test)))) ∧
    is_valid_dataset fs' [extractName] = true ∧
    evs = [.hfLoad, .saved "train" ds.train.length, .saved "dev" ds.validation.length,
           .saved "test" ds.test.length, .info "HF download complete"] ∧
    (fs.lookup [extractName, "validation"] = none →
      fs'.lookup [extractName, "validation"] = none) := by
  unfold download_from_huggingface at h
  rcases hmk : mkdirp [extractName] fs with _ | fs1
  · rw [hmk] at h; cases h
  · simp only [hmk, hfPairs] at h
    rcases h1 : hfSplitStep fs1 "train" ds.train with _ | r1
    · simp only [hfLoop, h1] at h; cases h
    · obtain ⟨fsA, evA⟩ := r1
      simp only [hfLoop, h1] at h
      rcases h2 : hfSplitStep fsA "dev" ds.validation with _ | r2
      · simp only [hfLoop, h2] at h; cases h
      · obtain ⟨fsB, evB⟩ := r2
        simp only [hfLoop, h2] at h
        rcases h3 : hfSplitStep fsB "test" ds.test with _ | r3
        · simp only [hfLoop, h3] at h; cases h
        · obtain ⟨fsC, evC⟩ := r3
          simp only [hfLoop, h3, Res.mk.injEq] at h
          obtain ⟨_, hfs, hevs⟩ := h
          subst hfs
          obtain ⟨hevA, hfileA, hdirA, hpresA⟩ := hfSplitStep_spec h1
          obtain ⟨hevB, hfileB, hdirB, hpresB⟩ := hfSplitStep_spec h2
          obtain ⟨hevC, hfileC, hdirC, hpresC⟩ := hfSplitStep_spec h3
          have hdevtr : ("dev" : String) ≠ "train" := by decide
          have htstr : ("test" : String) ≠ "train" := by decide
          have htsdev : ("test" : String) ≠ "dev" := by decide
          have htrain : fsC.lookup [extractName, "train", "dialogues_001.json"]
              = some (.file (.plain (.jsonText (.arr ds.train)))) := by
            rw [hpresC _ (diverge_second htstr _),
                hpresB _ (diverge_second hdevtr _)]
            exact hfileA
          have hdev : fsC.lookup [extractName, "dev", "dialogues_001.json"]
              = some (.file (.plain (.jsonText (.arr ds.validation)))) := by
            rw [hpresC _ (diverge_second htsdev _)]
            exact hfileB
          have htraind : (fsC.lookup [extractName, "train"]).isSome = true := by
            rw [hpresC _ (diverge_second htstr _),
                hpresB _ (diverge_second hdevtr _)]
            obtain ⟨es1, he1⟩ := hdirA
            simp [he1]
          have hdevd : (fsC.lookup [extractName, "dev"]).isSome = true := by
            rw [hpresC _ (diverge_second htsdev _)]
            obtain ⟨es1, he1⟩ := hdirB
            simp [he1]
          have htestd : (fsC.lookup [extractName, "test"]).isSome = true := by
            obtain ⟨es1, he1⟩ := hdirC
            simp [he1]
          refine ⟨htrain, hdev, hfileC, ?_, ?_, ?_⟩
          · simp [is_valid_dataset, htraind, hdevd, htestd]
          · rw [← hevs, hevA, hevB, hevC]
            rfl
          · intro hv
            have hv1 : fs1.lookup [extractName, "validation"] = none :=
              mkdirp_sibling_none hmk hv
            have hvtr : ("validation" : String) ≠ "train" := by decide
            have hvdev : ("validation" : String) ≠ "dev" := by decide
            have hvts : ("validation" : String) ≠ "test" := by decide
            rw [hpresC _ (diverge_second (Ne.symm hvts) _),
                hpresB _ (diverge_second (Ne.symm hvdev) _),
                hpresA _ (diverge_second (Ne.symm hvtr) _)]
            exact hv1

/-! Claim C6: the fallback adapter's fixed split remapping. -/

/-- C6: every successful fallback retrieval applies exactly the remapping
train→train, validation→dev, test→test: the alternate source's
`validation` partition is serialized as a single JSON array in
`dev/dialogues_001.json` (and never under a `validation` directory, which
is not created), the other partitions land likewise under `train` and
`test`, the per-split record counts are logged, and the resulting root
satisfies `is_valid_dataset`. -/
theorem download_from_huggingface_remaps (ds : HFData) (fs fs' : FSTree)
    (evs : List Event)
    (h : download_from_huggingface (some ds) fs = ⟨.ok (), fs', evs⟩) :
    fs'.lookup [extractName, "dev", "dialogues_001.json"]
      = some (.file (.plain (.jsonText (.arr ds.validation)))) ∧
    fs'.lookup [extractName, "train", "dialogues_001.json"]
      = some (.file (.plain (.jsonText (.arr ds.train)))) ∧
    fs'.lookup [extractName, "test", "dialogues_001.json"]
      = some (.file (.plain (.jsonText (.arr ds.test)))) ∧
    is_valid_dataset fs' [extractName] = true ∧
    Event.saved "dev" ds.validation.length ∈ evs ∧
    Event.saved "train" ds.train.length ∈ evs ∧
    Event.saved "test" ds.test.length ∈ evs ∧
    (fs.lookup [extractName, "validation"] = none →
      fs'.lookup [extractName, "validation"] = none) := by
  obtain ⟨h1, h2, h3, h4, h5, h6⟩ := hf_success_spec h
  subst h5
  exact ⟨h2, h1, h3, h4, by simp, by simp, by simp, h6⟩

/-- Witness for C6 at a concrete fallback run from an empty target. -/
theorem download_from_huggingface_remaps_witness :
    c6out.lookup [extractName, "dev", "dialogues_001.json"]
      = some (.file (.plain (.jsonText (.arr c6ds.validation)))) ∧
    c6out.lookup [extractName, "train", "dialogues_001.json"]
      = some (.file (.plain (.jsonText (.arr c6ds.train)))) ∧
    c6out.lookup [extractName, "test", "dialogues_001.json"]
      = some (.file (.plain (.jsonText (.arr c6ds.test)))) ∧
    is_valid_dataset c6out [extractName] = true ∧
    Event.saved "dev" c6ds.validation.length ∈ c6evs ∧
    Event.saved "train" c6ds.train.length ∈ c6evs ∧
    Event.saved "test" c6ds.test.length ∈ c6evs ∧
    ((FSTree.dir []).lookup [extractName, "validation"] = none →
      c6out.lookup [extractName, "validation"] = none) :=
  download_from_huggingface_remaps c6ds (.dir []) c6out c6evs rfl

/-! Claim C10: the fallback adapter overwrites pre-existing split files. -/

/-- C10: when a `dialogues_001.json` already exists under the canonical
`train` split, a successful fallback retrieval replaces its content with
the serialization of the newly fetched partition — it overwrites
unconditionally and never emits the Archive Normalizer's skip-and-warn
collision warning. -/
theorem download_from_huggingface_overwrites (ds : HFData) (fs fs' : FSTree)
    (evs : List Event) (d0 : FileData)
    (hpre : fs.lookup [extractName, "train", "dialogues_001.json"] = some (.file d0))
    (h : download_from_huggingface (some ds) fs = ⟨.ok (), fs', evs⟩) :
    fs'.lookup [extractName, "train", "dialogues_001.json"]
      = some (.file (.plain (.jsonText (.arr ds.train)))) ∧
    ∀ n, Event.warnSkip n ∉ evs := by
  obtain ⟨h1, _, _, _, h5, _⟩ := hf_success_spec h
  subst h5
  refine ⟨h1, fun n hn => ?_⟩
  simp at hn

/-- Witness for C10 at a concrete run over a pre-existing split file. -/
theorem download_from_huggingface_overwrites_witness :
    c10out.lookup [extractName, "train", "dialogues_001.json"]
      = some (.file (.plain (.jsonText (.arr c10ds.train)))) ∧
    ∀ n, Event.warnSkip n ∉ c10evs :=
  download_from_huggingface_overwrites c10ds c10fs c10out c10evs
    (.plain (.raw "old")) rfl rfl

/-! Claim C3: hard fallback on primary fetch failure. -/

theorem diverge_head {a b : String} (h : a ≠ b) (p q : List String) :
    Diverge (a :: p) (b :: q) := by
  simp only [Diverge]
  tauto

/-- C3: when the cache check fails, no archive is staged, and the primary
fetch raises (optionally leaving a partial archive file), the orchestrator
logs the failure and returns the Fallback Source Adapter's result
directly: same final filesystem and outcome (a fallback success becomes
the returned root, a fallback failure propagates), no extraction is ever
started, the fallback is invoked, and a partially staged archive file is
left in place, not deleted. -/
theorem download_multiwoz_fallback_on_fetch_failure
    (po : Option FileData) (hf : Option HFData) (es : List (String × FSTree))
    (hinvalid : is_valid_dataset (.dir es) [extractName] = false)
    (hzip : getEntry es zipName = none) :
    (download_multiwoz (.failure po) hf (.dir es)).fs
      = (download_from_huggingface hf (stagedAfterFailure po es)).fs ∧
    (download_multiwoz (.failure po) hf (.dir es)).events
      = [.net multiwozURL, .errorLog "Failed to download from official URL"]
        ++ (download_from_huggingface hf (stagedAfterFailure po es)).events ∧
    (download_multiwoz (.failure po) hf (.dir es)).out
      = (match (download_from_huggingface hf (stagedAfterFailure po es)).out with
         | .ok _ => .ok [extractName]
         | .err m => .err m) ∧
    Event.extractStart ∉ (download_multiwoz (.failure po) hf (.dir es)).events ∧
    Event.hfLoad ∈ (download_multiwoz (.failure po) hf (.dir es)).events ∧
    (∀ d, po = some d →
      ((download_multiwoz (.failure po) hf (.dir es)).fs).lookup [zipName]
        = some (.file d)) := by
  have hzl : (FSTree.dir es).lookup [zipName] = none := by
    simp [FSTree.lookup, hzip]
  have hdf : download_file (.failure po) multiwozURL [zipName] (.dir es)
      = ⟨.err "NetworkError", stagedAfterFailure po es, [.net multiwozURL]⟩ := by
    cases po with
    | none => rfl
    | some d =>
      simp [download_file, writeFile, FSTree.lookup, hzip, putTree, stagedAfterFailure]
  have hrun : download_multiwoz (.failure po) hf (.dir es)
      = match download_from_huggingface hf (stagedAfterFailure po es) with
        | ⟨.ok _, f, e⟩ => ⟨.ok [extractName], f,
            [.net multiwozURL, .errorLog "Failed to download from official URL"] ++ e⟩
        | ⟨.err m, f, e⟩ => ⟨.err m, f,
            [.net multiwozURL, .errorLog "Failed to download from official URL"] ++ e⟩ := by
    unfold download_multiwoz
    rw [hinvalid]
    simp only [Bool.and_false, Bool.false_eq_true, if_false, hzl, Option.isSome_none]
    rw [hdf]
    rcases h9 : download_from_huggingface hf (stagedAfterFailure po es) with ⟨o, f, e⟩
    cases o <;> simp [h9]
  rcases hhf : download_from_huggingface hf (stagedAfterFailure po es) with ⟨o, fs2, evs2⟩
  rw [hhf] at hrun
  have hnoex : Event.extractStart ∉ evs2 := by
    have h0 := hf_no_extractStart hf (stagedAfterFailure po es)
    rw [hhf] at h0
    exact h0
  have hload : Event.hfLoad ∈ evs2 := by
    have h0 := hf_hfLoad_mem hf (stagedAfterFailure po es)
    rw [hhf] at h0
    exact h0
  have hzip2 : ∀ d, po = some d → fs2.lookup [zipName] = some (.file d) := by
    intro d hd
    subst hd
    have hp : fs2.lookup [zipName]
        = (stagedAfterFailure (some d) es).lookup [zipName] := by
      have h0 := hf_preserves_top hf (stagedAfterFailure (some d) es) zipName [] (by decide)
      rw [hhf] at h0
      exact h0
    rw [hp]
    simp [stagedAfterFailure, FSTree.lookup, getEntry_setEntry_self]
  cases o with
  | ok u =>
    refine ⟨?_, ?_, ?_, ?_, ?_, ?_⟩
    · simp [hrun]
    · simp [hrun]
    · simp [hrun]
    · rw [hrun]
      intro hm
      simp at hm
      exact hnoex hm
    · rw [hrun]
      simp [hload]
    · intro d hd
      rw [hrun]
      exact hzip2 d hd
  | err m =>
    refine ⟨?_, ?_, ?_, ?_, ?_, ?_⟩
    · simp [hrun]
    · simp [hrun]
    · simp [hrun]
    · rw [hrun]
      intro hm
      simp at hm
      exact hnoex hm
    · rw [hrun]
      simp [hload]
    · intro d hd
      rw [hrun]
      exact hzip2 d hd

/-- Witness for C3 at a concrete failed fetch that leaves a partial
archive, with a succeeding fallback. -/
theorem download_multiwoz_fallback_witness :
    (download_multiwoz (.failure (some (.plain (.raw "part")))) (some c3ds) (.dir c3es)).fs
      = (download_from_huggingface (some c3ds)
          (stagedAfterFailure (some (.plain (.raw "part"))) c3es)).fs ∧
    (download_multiwoz (.failure (some (.plain (.raw "part")))) (some c3ds) (.dir c3es)).events
      = [.net multiwozURL, .errorLog "Failed to download from official URL"]
        ++ (download_from_huggingface (some c3ds)
            (stagedAfterFailure (some (.plain (.raw "part"))) c3es)).events ∧
    (download_multiwoz (.failure (some (.plain (.raw "part")))) (some c3ds) (.dir c3es)).out
      = (match (download_from_huggingface (some c3ds)
            (stagedAfterFailure (some (.plain (.raw "part"))) c3es)).out with
         | .ok _ => .ok [extractName]
         | .err m => .err m) ∧
    Event.extractStart ∉
      (download_multiwoz (.failure (some (.plain (.raw "part")))) (some c3ds) (.dir c3es)).events ∧
    Event.hfLoad ∈
      (download_multiwoz (.failure (some (.plain (.raw "part")))) (some c3ds) (.dir c3es)).events ∧
    (∀ d, (some (.plain (.raw "part")) : Option FileData) = some d →
      ((download_multiwoz (.failure (some (.plain (.raw "part")))) (some c3ds) (.dir c3es)).fs).lookup
          [zipName] = some (.file d)) :=
  download_multiwoz_fallback_on_fetch_failure (some (.plain (.raw "part")))
    (some c3ds) c3es rfl rfl

/-! Claim C7: the staged archive is deleted iff extraction succeeds. -/

theorem extractAll_preserves_top (entries : List ZipEntry) :
    ∀ (fs : FSTree) (x : String) (q : List String), x ≠ extractName →
      (exceptFs (extractAll entries [extractName] fs)).lookup (x :: q)
        = fs.lookup (x :: q) := by
  induction entries with
  | nil => intro fs x q _; simp [extractAll, exceptFs]
  | cons e rest ih =>
    intro fs x q hx
    unfold extractAll
    rcases hmk : mkdirp ([extractName] ++ e.path.dropLast) fs with _ | fsA
    · simp [hmk, exceptFs]
    · simp only [hmk]
      rcases hwf : writeFile ([extractName] ++ e.path) (.plain e.content) fsA with _ | fsB
      · simp only [hwf, exceptFs]
        exact mkdirp_lookup_other hmk _ (diverge_head (Ne.symm hx) _ _)
      · simp only [hwf]
        rw [ih fsB x q hx]
        rw [writeFile_lookup_other hwf _ (diverge_head (Ne.symm hx) _ _)]
        exact mkdirp_lookup_other hmk _ (diverge_head (Ne.symm hx) _ _)

theorem restructureAt_preserves_top (fs : FSTree) (x : String) (q : List String)
    (hx : x ≠ extractName) :
    ((restructureAt [extractName] fs).fs).lookup (x :: q) = fs.lookup (x :: q) := by
  unfold restructureAt
  repeat' split
  all_goals try rfl
  all_goals rename_i h4
  all_goals exact putTree_lookup_other h4 _ (diverge_head (Ne.symm hx) _ _)

theorem extract_zip_preserves_top (fs : FSTree) (x : String) (q : List String)
    (hx : x ≠ extractName) :
    ((extract_zip [zipName] [extractName] fs).fs).lookup (x :: q)
      = fs.lookup (x :: q) := by
  unfold extract_zip
  split
  · rename_i entries hz
    rcases hea : extractAll entries [extractName] fs with fs1 | fs1
    · have h0 := extractAll_preserves_top entries fs x q hx
      rw [hea] at h0
      exact h0
    · have h0 := extractAll_preserves_top entries fs x q hx
      rw [hea] at h0
      exact (restructureAt_preserves_top fs1 x q hx).trans h0
  · rfl

theorem restructureAt_no_hfLoad (ep : List String) (fs : FSTree) :
    Event.hfLoad ∉ (restructureAt ep fs).events := by
  unfold restructureAt
  repeat' split
  all_goals simp [List.mem_map]

theorem extract_zip_no_hfLoad (zp ep : List String) (fs : FSTree) :
    Event.hfLoad ∉ (extract_zip zp ep fs).events := by
  unfold extract_zip
  split
  · rename_i entries hz
    rcases hea : extractAll entries ep fs with fs1 | fs1
    · simp
    · intro hm
      simp at hm
      exact restructureAt_no_hfLoad ep fs1 hm
  · simp

/-- C7: on a cache miss with an archive already staged, the staged file
is deleted if and only if normalization succeeds: a successful
`extract_zip` ends with the archive unlinked and the root returned; a
failed `extract_zip` surfaces its error as the result of
`download_multiwoz` with the staged archive still present and no
fallback attempted. -/
theorem download_multiwoz_cleanup_iff (net : FetchOutcome) (hf : Option HFData)
    (fs : FSTree) (d : FileData)
    (hinvalid : is_valid_dataset fs [extractName] = false)
    (hzip : fs.lookup [zipName] = some (.file d)) :
    ∀ o fs2 evs2, extract_zip [zipName] [extractName] fs = ⟨o, fs2, evs2⟩ →
      (o = .ok () →
        download_multiwoz net hf fs
          = ⟨.ok [extractName], erasePath [zipName] fs2,
             evs2 ++ [.info "Cleaned up zip file"]⟩ ∧
        (erasePath [zipName] fs2).lookup [zipName] = none) ∧
      (∀ m, o = .err m →
        download_multiwoz net hf fs = ⟨.err m, fs2, evs2⟩ ∧
        fs2.lookup [zipName] = some (.file d) ∧
        Event.hfLoad ∉ evs2) := by
  intro o fs2 evs2 hE
  have hpres : fs2.lookup [zipName] = some (.file d) := by
    have hp := extract_zip_preserves_top fs zipName [] (by decide)
    rw [hE] at hp
    rw [hzip] at hp
    exact hp
  have hdm0 : download_multiwoz net hf fs = extractAndCleanup fs [] := by
    unfold download_multiwoz
    rw [hinvalid]
    simp only [Bool.and_false, Bool.false_eq_true, if_false, hzip, Option.isSome_some, if_true]
  constructor
  · intro ho
    subst ho
    have hec : extractAndCleanup fs []
        = ⟨.ok [extractName], erasePath [zipName] fs2,
           evs2 ++ [.info "Cleaned up zip file"]⟩ := by
      unfold extractAndCleanup
      rw [hE]
      simp only [hpres]
      simp
    refine ⟨by rw [hdm0, hec], ?_⟩
    rcases fs2 with d2 | es2
    · simp [FSTree.lookup] at hpres
    · exact erasePath_singleton zipName es2
  · intro m ho
    subst ho
    have hec : extractAndCleanup fs [] = ⟨.err m, fs2, evs2⟩ := by
      unfold extractAndCleanup
      rw [hE]
      simp
    have hnohf : Event.hfLoad ∉ evs2 := by
      have h0 := extract_zip_no_hfLoad [zipName] [extractName] fs
      rw [hE] at h0
      exact h0
    exact ⟨by rw [hdm0, hec], hpres, hnohf⟩

/-- Witness for C7 at a staged corrupt archive: extraction fails, the
failure is the call's result, the staged archive survives, and no
fallback runs. -/
theorem download_multiwoz_cleanup_iff_witness :
    download_multiwoz (.failure none) none c7fs
      = ⟨.err "BadZipFile", c7fs, [.extractStart]⟩ ∧
    c7fs.lookup [zipName] = some (.file (.plain (.raw "corrupt"))) ∧
    Event.hfLoad ∉ [Event.extractStart] :=
  ((download_multiwoz_cleanup_iff (.failure none) none c7fs
      (.plain (.raw "corrupt")) rfl rfl (.err "BadZipFile") c7fs [.extractStart]
      rfl).2) "BadZipFile" rfl
